import Mathlib

set_option maxRecDepth 40000

/-!
Verification of the content-processing core of atlassian-to-rag
(src/atlassian_to_rag/processor.py).

The development is a shallow embedding of ConfluenceProcessor: the page
extractors (text, tables, code, metadata, attachments, comments), the
page orchestrator process_page, and the corpus analytics generate_summary
and analyze_content_quality.  External libraries are modelled on the
fragment of their behaviour the processor exercises:

* BeautifulSoup with the html.parser builder is modelled by a tokenizer
  (tag recognition, character-reference decoding as done by
  convert_charrefs, the incomplete-markup fallback of HTMLParser) and a
  tree builder producing a Forest; get_text(separator, strip=True) joins
  the stripped non-empty descendant strings with the separator.
  Attribute parsing is omitted (the concrete claims use attribute-free
  markup); class lists are carried in the tree so that the class-based
  language selection of the code extractor is still embedded.
* The regular expression <[^>]+> and re.sub are embedded as a one-pass
  scanner (tagSubGo) with the exact leftmost, non-overlapping semantics
  of re.sub for this pattern.
* pandas.read_html is modelled on simple header/body tables: descendant
  tr rows, th/td cells, a leading all-th row becomes the header, cells
  of an all-integer column are converted to integers, and a table that
  yields no cells at all raises (is un-parseable).
* datetime.fromisoformat is modelled on the YYYY-MM-DD and
  YYYY-MM-DDTHH:MM:SS shapes, with basic range validation.
* Python float arithmetic in the quality metrics is modelled with
  rational numbers; round(x, 2) is modelled as exact half-even rounding.

Dictionaries become records with Option-valued fields (missing key =
none).  Each extractor is written in state-passing style: every access
to the input page is a read that threads the page value through, so a
mutating operation in the source would have to surface as returning an
updated page; the frame theorems record that the page comes back
unchanged.
-/

namespace ARag

/-! ### Character classes and elementary utilities on lists of characters -/

/-- Whitespace characters recognised by Python str.split and str.strip
(ASCII fragment). -/
def isWsC (c : Char) : Bool :=
  c = ' ' || c = '\t' || c = '\n' || c = '\r' || c = '\x0b' || c = '\x0c'

def isDigitC (c : Char) : Bool :=
  decide ('0' ≤ c) && decide (c ≤ '9')

def isAlphaC (c : Char) : Bool :=
  (decide ('a' ≤ c) && decide (c ≤ 'z')) || (decide ('A' ≤ c) && decide (c ≤ 'Z'))

/-- Characters allowed in a tag name by the tokenizer (letters and digits). -/
def isTagNameC (c : Char) : Bool :=
  isAlphaC c || isDigitC c

/-- Python str.strip(): drop leading and trailing whitespace. -/
def pstrip (l : List Char) : List Char :=
  ((l.dropWhile isWsC).reverse.dropWhile isWsC).reverse

/-- Helper for splitWsCore: accumulate the current word (reversed). -/
def splitWsAux : List Char → List Char → List (List Char)
  | [], acc => if acc.isEmpty then [] else [acc.reverse]
  | c :: rest, acc =>
    if isWsC c then
      if acc.isEmpty then splitWsAux rest [] else acc.reverse :: splitWsAux rest []
    else splitWsAux rest (c :: acc)

/-- Python str.split() with no argument: the whitespace-separated words,
with no empty entries. -/
def splitWsCore (l : List Char) : List (List Char) :=
  splitWsAux l []

/-- One-pass whitespace collapsing, the composition
" ".join(text.split()) of the text cleaner.  State: 0 = before the
first word, 1 = inside a word, 2 = in whitespace after a word. -/
def clpsGo : Nat → List Char → List Char
  | _, [] => []
  | st, c :: rest =>
    if isWsC c then clpsGo (if st = 0 then 0 else 2) rest
    else (if st = 2 then [' '] else []) ++ c :: clpsGo 1 rest

/-- " ".join(l.split()): collapse whitespace runs to single spaces and trim. -/
def collapseWs (l : List Char) : List Char :=
  clpsGo 0 l

/-- Sentence punctuation class of the readability heuristic. -/
def isPunctC (c : Char) : Bool :=
  c = '.' || c = '!' || c = '?'

/-- Helper for splitPunct: Bool flag = currently inside a punctuation run. -/
def splitPunctGo : Bool → List Char → List Char → List (List Char)
  | _, acc, [] => [acc.reverse]
  | inP, acc, c :: rest =>
    if isPunctC c then
      if inP then splitPunctGo true acc rest
      else acc.reverse :: splitPunctGo true [] rest
    else splitPunctGo false (c :: acc) rest

/-- re.split on the pattern [.!?]+ : the fragments between maximal
punctuation runs, including empty leading, trailing and (absent here)
inner fragments, exactly as re.split returns them. -/
def splitPunct (l : List Char) : List (List Char) :=
  splitPunctGo false [] l

/-- Number of maximal [.!?] runs in the text (used to state the spec
reading of the sentence count). -/
def countPunctRuns : List Char → Bool → Nat
  | [], _ => 0
  | c :: rest, inP =>
    if isPunctC c then
      if inP then countPunctRuns rest true else countPunctRuns rest true + 1
    else countPunctRuns rest false

/-- Scanner state for the regular expression <[^>]+> : either outside a
candidate match, or after an unresolved < together with the buffered
characters read since (in reverse order). -/
def tagSubGo : Option (List Char) → List Char → List Char
  | none, [] => []
  | none, c :: rest =>
    if c = '<' then tagSubGo (some []) rest else c :: tagSubGo none rest
  | some buf, [] => '<' :: buf.reverse
  | some buf, c :: rest =>
    if c = '>' then
      if buf.isEmpty then '<' :: '>' :: tagSubGo none rest
      else tagSubGo none rest
    else tagSubGo (some (c :: buf)) rest

/-- re.sub of the pattern <[^>]+> by the empty string (the secondary
tag-stripping pass of the text cleaner). -/
def tagSub (l : List Char) : List Char :=
  tagSubGo none l

/-! ### A scanner deciding absence of a <[^>]+> match

mfRun runs a three-state machine over the text; it returns false exactly
when the text contains a match of <[^>]+>, i.e. a < whose first
following > is at distance at least two.  It is the workhorse for the
idempotence and formatting-score theorems. -/

inductive MfSt where
  | clean : MfSt
  | lt : Bool → MfSt
deriving DecidableEq, Repr

/-- One step of the match scanner; none means a match was completed. -/
def mfStep : MfSt → Char → Option MfSt
  | .clean, c => if c = '<' then some (.lt false) else some .clean
  | .lt m, c =>
    if c = '>' then (if m then none else some .clean)
    else some (.lt true)

def mfRun : MfSt → List Char → Bool
  | _, [] => true
  | s, c :: rest =>
    match mfStep s c with
    | none => false
    | some s2 => mfRun s2 rest

/-- The text contains no match of the tag pattern <[^>]+>. -/
def tagFree (l : List Char) : Bool :=
  mfRun .clean l

/-- Effect of a whitespace character (indeed of any character other than
< and >) on the scanner state. -/
def wsS : MfSt → MfSt
  | .clean => .clean
  | .lt _ => .lt true

/-! ### Substring search -/

def isPreC : List Char → List Char → Bool
  | [], _ => true
  | _ :: _, [] => false
  | a :: as, b :: bs => a = b && isPreC as bs

/-- Python substring containment (the in operator on str). -/
def containsSub (pat : List Char) : List Char → Bool
  | [] => isPreC pat []
  | c :: rest => isPreC pat (c :: rest) || containsSub pat rest

/-! ### Integers in cell text (the numeric conversion of read_html) -/

def digitsToNat (l : List Char) : Nat :=
  l.foldl (fun a c => a * 10 + (c.toNat - 48)) 0

/-- Parse the text of a table cell as an integer, the fragment of the
pandas type inference the modelled tables exercise. -/
def parseIntC : List Char → Option Int
  | '-' :: ds =>
    if ds.isEmpty then none
    else if ds.all isDigitC then some (-(digitsToNat ds : Int)) else none
  | ds =>
    if ds.isEmpty then none
    else if ds.all isDigitC then some (digitsToNat ds : Int) else none

/-! ### HTML tokenizer (model of html.parser with convert_charrefs) -/

inductive Tok where
  | tagOpen : String → List String → Tok
  | tagClose : String → Tok
  | chunk : List Char → Tok
deriving DecidableEq, Repr

/-- Prepend a text chunk, merging with an adjacent chunk: convert_charrefs
merges character references and surrounding data into a single string,
and consecutive data events without an intervening tag form one
NavigableString. -/
def chunkCons (s : List Char) (ts : List Tok) : List Tok :=
  match ts with
  | Tok.chunk s2 :: r => Tok.chunk (s ++ s2) :: r
  | _ => Tok.chunk s :: ts

/-- The named character references the model decodes (semicolon forms). -/
def entityTable : List (List Char × Char) :=
  [("amp;".toList, '&'), ("lt;".toList, '<'), ("gt;".toList, '>'),
   ("quot;".toList, '"'), ("apos;".toList, '\x27')]

def findEntity (l : List Char) : Option (Char × Nat) :=
  (entityTable.find? (fun e => isPreC e.1 l)).map (fun e => (e.2, e.1.length))

/-- Scan for the > closing a piece of markup: the input after the first
>, or none when there is no > at all. -/
def scanGt (l : List Char) : Option (List Char) :=
  match l.dropWhile (fun c => c ≠ '>') with
  | '>' :: b => some b
  | _ => none

/-- Fueled tokenizer.  Mirrors HTMLParser: a tag is recognised when <
is followed by a letter (or / and a name, or !) and a closing > exists;
otherwise the incomplete-markup fallback of goahead emits the text from
the < up to the next < (or the end) as data.  A < followed by anything
else is literal text, and character references in data are decoded. -/
def tokenizeF : Nat → List Char → List Tok
  | 0, _ => []
  | _ + 1, [] => []
  | n + 1, c :: rest =>
    if c = '&' then
      match findEntity rest with
      | some ek => chunkCons [ek.1] (tokenizeF n (rest.drop ek.2))
      | none => chunkCons ['&'] (tokenizeF n rest)
    else if c = '<' then
      match rest with
      | [] => chunkCons ['<'] []
      | c2 :: r2 =>
        if isAlphaC c2 then
          -- start tag
          match scanGt (rest.dropWhile isTagNameC) with
          | some b =>
            if ((rest.dropWhile isTagNameC).takeWhile (fun x => x ≠ '>')).getLast?
                = some '/' then
              Tok.tagOpen (String.mk ((rest.takeWhile isTagNameC).map Char.toLower)) []
                :: Tok.tagClose (String.mk ((rest.takeWhile isTagNameC).map Char.toLower))
                :: tokenizeF n b
            else
              Tok.tagOpen (String.mk ((rest.takeWhile isTagNameC).map Char.toLower)) []
                :: tokenizeF n b
          | none =>
            -- incomplete markup at end of data: emitted as data up to the next <
            chunkCons ('<' :: rest.takeWhile (fun x => x ≠ '<'))
              (tokenizeF n (rest.dropWhile (fun x => x ≠ '<')))
        else if c2 = '/' then
          if (r2.takeWhile isTagNameC).isEmpty then chunkCons ['<'] (tokenizeF n rest)
          else
            match scanGt (r2.dropWhile isTagNameC) with
            | some b =>
              Tok.tagClose (String.mk ((r2.takeWhile isTagNameC).map Char.toLower))
                :: tokenizeF n b
            | none =>
              chunkCons ('<' :: rest.takeWhile (fun x => x ≠ '<'))
                (tokenizeF n (rest.dropWhile (fun x => x ≠ '<')))
        else if c2 = '!' then
          -- declaration or comment: dropped when terminated, data fallback otherwise
          match scanGt rest with
          | some b => tokenizeF n b
          | none =>
            chunkCons ('<' :: rest.takeWhile (fun x => x ≠ '<'))
              (tokenizeF n (rest.dropWhile (fun x => x ≠ '<')))
        else
          chunkCons ['<'] (tokenizeF n rest)
    else chunkCons [c] (tokenizeF n rest)

def tokenize (l : List Char) : List Tok :=
  tokenizeF (l.length + 1) l

/-! ### Document tree -/

/-- An HTML forest: a sibling-chained sequence of text and element
nodes.  Elements carry the tag name, the class list of the class
attribute, and their children. -/
inductive Forest where
  | nil : Forest
  | textF : List Char → Forest → Forest
  | elemF : String → List String → Forest → Forest → Forest
deriving DecidableEq, Repr

/-- An element as returned by find_all: tag name, classes, children. -/
structure ElemT where
  tag : String
  classes : List String
  kids : Forest
deriving DecidableEq, Repr

/-- Fueled tree builder: open tags collect children until the matching
close tag; a stray close tag is dropped.  Well-nested markup (all the
markup the claims exercise) is built as written. -/
def buildF : Nat → List Tok → Option String → (Forest × List Tok)
  | 0, toks, _ => (.nil, toks)
  | _ + 1, [], _ => (.nil, [])
  | n + 1, Tok.chunk s :: rest, stop =>
    let p := buildF n rest stop
    (.textF s p.1, p.2)
  | n + 1, Tok.tagClose t :: rest, stop =>
    if stop = some t then (.nil, rest) else buildF n rest stop
  | n + 1, Tok.tagOpen t cls :: rest, stop =>
    let pk := buildF n rest (some t)
    let ps := buildF n pk.2 stop
    (.elemF t cls pk.1 ps.1, ps.2)

/-- BeautifulSoup(content, html.parser): tokenize and build the tree. -/
def parseHtml (s : String) : Forest :=
  let toks := tokenize s.toList
  (buildF (toks.length + 1) toks none).1

/-- Remove script and style elements together with their content
(element.decompose() in the text extractor). -/
def stripSS : Forest → Forest
  | .nil => .nil
  | .textF s sib => .textF s (stripSS sib)
  | .elemF t cls kids sib =>
    if t = "script" || t = "style" then stripSS sib
    else .elemF t cls (stripSS kids) (stripSS sib)

/-- The descendant strings of the forest, in document order. -/
def stringsF : Forest → List (List Char)
  | .nil => []
  | .textF s sib => s :: stringsF sib
  | .elemF _ _ kids sib => stringsF kids ++ stringsF sib

/-- soup.get_text(separator=sep, strip=True): the descendant strings,
each stripped, empty ones skipped, joined with the separator. -/
def getTextS (sep : List Char) (f : Forest) : List Char :=
  List.intercalate sep (((stringsF f).map pstrip).filter (fun s => !s.isEmpty))

/-- soup.find_all(tags): the elements whose tag is in the list, in
pre-order (an element before its own matching descendants). -/
def findAllF (tags : List String) : Forest → List ElemT
  | .nil => []
  | .textF _ sib => findAllF tags sib
  | .elemF t cls kids sib =>
    (if t ∈ tags then [ElemT.mk t cls kids] else [])
      ++ findAllF tags kids ++ findAllF tags sib

/-! ### pandas.read_html model -/

/-- A value in a parsed table: read_html type inference turns all-integer
columns into integers, everything else stays text. -/
inductive CellV where
  | intV : Int → CellV
  | strV : String → CellV
deriving DecidableEq, Repr

/-- headers = df.columns.tolist(), data = df.values.tolist(),
shape = df.shape. -/
structure TableT where
  headers : List CellV
  data : List (List CellV)
  shape : Nat × Nat
deriving DecidableEq, Repr

/-- The visible text of a table cell as read_html extracts it. -/
def cellText (e : ElemT) : List Char :=
  collapseWs (getTextS [' '] e.kids)

/-- A row: the cell tags (th or td) with their texts. -/
def rowCells (tr : ElemT) : List (String × List Char) :=
  (findAllF ["th", "td"] tr.kids).map (fun c => (c.tag, cellText c))

def isHeaderRow (r : List (String × List Char)) : Bool :=
  !r.isEmpty && r.all (fun c => c.1 = "th")

/-- Column j of the body parses as an integer in every row. -/
def colAllInt (rows : List (List (List Char))) (j : Nat) : Bool :=
  rows.all (fun r => (parseIntC (r.getD j [])).isSome)

def convertCell (rows : List (List (List Char))) (j : Nat) (s : List Char) : CellV :=
  if colAllInt rows j then
    match parseIntC s with
    | some n => CellV.intV n
    | none => CellV.strV (String.mk s)
  else CellV.strV (String.mk s)

/-- pandas.read_html(str(table))[0] on the modelled fragment: the
descendant tr rows; a leading run of all-th rows is the header (the
first such row names the columns); the remaining rows are the data,
with all-integer columns converted; a table yielding no cells at all
raises ValueError.  Columns of a header-less table are the positional
integers of the RangeIndex. -/
def readHtml (t : ElemT) : Except String TableT :=
  let rows := (findAllF ["tr"] t.kids).map rowCells
  if rows.all (fun r => r.isEmpty) then .error "No tables found"
  else
    let headRows := rows.takeWhile isHeaderRow
    let bodyRows := rows.dropWhile isHeaderRow
    let body := bodyRows.map (fun r => r.map (fun c => c.2))
    let headers :=
      match headRows with
      | h :: _ => h.map (fun c => CellV.strV (String.mk c.2))
      | [] => (List.range ((body.map List.length).foldr max 0)).map
          (fun j => CellV.intV (j : Int))
    let dataRows := body.map (fun r => r.mapIdx (fun j s => convertCell body j s))
    .ok (TableT.mk headers dataRows (dataRows.length, headers.length))

/-! ### Data model -/

/-- A dynamically-typed dictionary value where the source stores either a
string or a number (the version field of a raw page). -/
inductive JVal where
  | str : String → JVal
  | int : Int → JVal
deriving DecidableEq, Repr

/-- Python truthiness of the values stored in the version field. -/
def JVal.truthy : JVal → Bool
  | .str s => !(s = "")
  | .int n => !(n = 0)

/-- A raw attachment record; missing keys are none. -/
structure AttachIn where
  id : Option String
  filename : Option String
  size : Option Int
  mediaType : Option String
deriving DecidableEq, Repr

/-- A raw comment record; missing keys are none. -/
structure CommentIn where
  id : Option String
  author : Option String
  created : Option String
  content : Option String
deriving DecidableEq, Repr

/-- RawPage: the dict handed to process_page; missing keys are none. -/
structure Page where
  id : Option String
  title : Option String
  content : Option String
  url : Option String
  version : Option JVal
  last_modified : Option String
  attachments : Option (List AttachIn)
  comments : Option (List CommentIn)
deriving DecidableEq, Repr

/-- A page dict holding only a content key (the dict the comment
normalizer builds for each comment body). -/
def pageOfContent (s : String) : Page :=
  Page.mk none none (some s) none none none none none

/-- The metadata record produced by the metadata extractor. -/
structure Metadata where
  id : String
  title : String
  url : String
  version : JVal
  last_modified : String
  source : String
  processed_at : String
deriving DecidableEq, Repr

structure CodeBlock where
  language : String
  content : String
deriving DecidableEq, Repr

structure AttachOut where
  id : String
  filename : String
  size : Int
  media_type : String
deriving DecidableEq, Repr

structure CommentOut where
  id : String
  author : String
  created : String
  content : String
deriving DecidableEq, Repr

/-- ProcessedDocument: the result dict of process_page.  The metadata
field is none when the extractor failed and the empty dict was
substituted. -/
structure Doc where
  content : String
  metadata : Option Metadata
  tables : List TableT
  code_blocks : List CodeBlock
  attachments : List AttachOut
  comments : List CommentOut
deriving DecidableEq, Repr

/-! ### The six extractors

Each extractor is state-passing on the page: every page access is a
read, so the page is threaded through and returned.  The pure versions
are the first projections. -/

/-- The text-cleaning pipeline of the text extractor on a raw markup
string: parse, drop script and style elements, extract text with
single-space separators and stripping, strip remaining tags with the
regular expression, collapse whitespace. -/
def cleanText (c : String) : String :=
  String.mk (collapseWs (tagSub (getTextS [' '] (stripSS (parseHtml c)))))

def processTextM (p : Page) : String × Page :=
  (cleanText (p.content.getD ""), p)

def processText (p : Page) : String :=
  (processTextM p).1

def processTablesM (p : Page) : List TableT × Page :=
  if (p.content.getD "") = "" then ([], p)
  else
    (((findAllF ["table"] (parseHtml (p.content.getD ""))).filterMap
      (fun t => (readHtml t).toOption)), p)

def processTables (p : Page) : List TableT :=
  (processTablesM p).1

/-- code.get("class", ["text"])[0] if code.get("class") else "text" -/
def langOf (classes : List String) : String :=
  match classes with
  | [] => "text"
  | c :: _ => c

def processCodeM (p : Page) : List CodeBlock × Page :=
  if (p.content.getD "") = "" then ([], p)
  else
    (((findAllF ["code", "pre"] (parseHtml (p.content.getD ""))).map
      (fun e => CodeBlock.mk (langOf e.classes) (String.mk (getTextS [] e.kids)))), p)

def processCode (p : Page) : List CodeBlock :=
  (processCodeM p).1

def processMetadataM (p : Page) (now : String) : Metadata × Page :=
  (Metadata.mk (p.id.getD "") (p.title.getD "") (p.url.getD "")
    (p.version.getD (JVal.str ""))
    (p.last_modified.getD "") "confluence" now, p)

def processMetadata (p : Page) (now : String) : Metadata :=
  (processMetadataM p now).1

def processAttachmentsM (p : Page) : List AttachOut × Page :=
  (((p.attachments.getD []).map
    (fun a => AttachOut.mk (a.id.getD "") (a.filename.getD "")
      (a.size.getD 0) (a.mediaType.getD ""))), p)

def processAttachments (p : Page) : List AttachOut :=
  (processAttachmentsM p).1

def processCommentsM (p : Page) : List CommentOut × Page :=
  (((p.comments.getD []).map
    (fun c => CommentOut.mk (c.id.getD "") (c.author.getD "")
      (c.created.getD "")
      (processText (pageOfContent (c.content.getD ""))))), p)

def processComments (p : Page) : List CommentOut :=
  (processCommentsM p).1

/-! ### The orchestrator -/

/-- The six per-field extraction tasks the orchestrator submits.  In the
source each future can raise; an arbitrary ExtractorSet quantifies over
every pattern of success and failure.  The instance used by the running
system is realExtractors. -/
structure ExtractorSet where
  text : Page → Except String String
  tables : Page → Except String (List TableT)
  code : Page → Except String (List CodeBlock)
  metadata : Page → Except String Metadata
  attachments : Page → Except String (List AttachOut)
  comments : Page → Except String (List CommentOut)

def realExtractors (now : String) : ExtractorSet :=
  ExtractorSet.mk
    (fun p => .ok (processText p))
    (fun p => .ok (processTables p))
    (fun p => .ok (processCode p))
    (fun p => .ok (processMetadata p now))
    (fun p => .ok (processAttachments p))
    (fun p => .ok (processComments p))

/-- future.result() under the try/except of the orchestrator: a raised
exception is logged and replaced by the type-appropriate default. -/
def recoverD {α : Type} (d : α) : Except String α → α
  | .ok v => v
  | .error _ => d

def okOpt {α : Type} : Except String α → Option α
  | .ok v => some v
  | .error _ => none

/-- process_page: run the six extractors on the page, recover each
failure with its typed default, and assemble the document.  The
assembly itself is total, so no ProcessingError can originate here;
the metrics call is a side effect outside the data path. -/
def processPageX (exts : ExtractorSet) (p : Page) : Doc :=
  Doc.mk
    (recoverD "" (exts.text p))
    (okOpt (exts.metadata p))
    (recoverD [] (exts.tables p))
    (recoverD [] (exts.code p))
    (recoverD [] (exts.attachments p))
    (recoverD [] (exts.comments p))

/-- process_page with the real extractors, threading the page through
every extractor to record that all of them only read it. -/
def processPageM (p : Page) (now : String) : Doc × Page :=
  let t := processTextM p
  let tb := processTablesM t.2
  let cd := processCodeM tb.2
  let md := processMetadataM cd.2 now
  let at2 := processAttachmentsM md.2
  let cm := processCommentsM at2.2
  (Doc.mk t.1 (some md.1) tb.1 cd.1 at2.1 cm.1, cm.2)

/-! ### datetime.fromisoformat model and the summary -/

/-- A parsed datetime value (components of an ISO date, time defaulting
to midnight). -/
structure DateV where
  year : Nat
  month : Nat
  day : Nat
  hour : Nat
  minute : Nat
  second : Nat
deriving DecidableEq, Repr

/-- Chronological key: datetimes compare lexicographically on their
components. -/
def DateV.key (d : DateV) : Nat :=
  ((((d.year * 13 + d.month) * 32 + d.day) * 24 + d.hour) * 60 + d.minute) * 60
    + d.second

def d2 (a b : Char) : Nat :=
  (a.toNat - 48) * 10 + (b.toNat - 48)

def d4 (a b c d : Char) : Nat :=
  ((a.toNat - 48) * 10 + (b.toNat - 48)) * 100 + d2 c d

def mkDateV (y mo dy hh mi ss : Nat) : Option DateV :=
  if 1 ≤ mo ∧ mo ≤ 12 ∧ 1 ≤ dy ∧ dy ≤ 31 ∧ hh < 24 ∧ mi < 60 ∧ ss < 60 then
    some (DateV.mk y mo dy hh mi ss)
  else none

/-- datetime.fromisoformat on the shapes the corpus uses: YYYY-MM-DD and
YYYY-MM-DDTHH:MM:SS, with digit and range validation; anything else
raises ValueError (none here). -/
def parseIsoDate (s : String) : Option DateV :=
  match s.toList with
  | [a, b, c, d, '-', e, f, '-', g, h] =>
    if [a, b, c, d, e, f, g, h].all isDigitC then
      mkDateV (d4 a b c d) (d2 e f) (d2 g h) 0 0 0
    else none
  | [a, b, c, d, '-', e, f, '-', g, h, 'T', i, j, ':', k, l, ':', m, n] =>
    if [a, b, c, d, e, f, g, h, i, j, k, l, m, n].all isDigitC then
      mkDateV (d4 a b c d) (d2 e f) (d2 g h) (d2 i j) (d2 k l) (d2 m n)
    else none
  | _ => none

/-- The last_modified value generate_summary reads off a document:
page.get("metadata", {}).get("last_modified") with the empty string for
a missing key. -/
def lmOf (d : Doc) : String :=
  match d.metadata with
  | some m => m.last_modified
  | none => ""

/-- The list comprehension of generate_summary: the last_modified value
of each document with a truthy one, parsed; the first unparseable value
raises (error).  A document whose metadata is the empty dict, or whose
last_modified is empty, is skipped. -/
def collectDates : List Doc → Except String (List DateV)
  | [] => .ok []
  | d :: rest =>
    if lmOf d = "" then collectDates rest
    else
      match parseIsoDate (lmOf d) with
      | none => .error ("Invalid isoformat string: " ++ lmOf d)
      | some dt => (collectDates rest).map (fun ds => dt :: ds)

def minD (a b : DateV) : DateV := if b.key < a.key then b else a

def maxD (a b : DateV) : DateV := if a.key < b.key then b else a

def minDates : List DateV → Option DateV
  | [] => none
  | d :: rest => some (rest.foldl minD d)

def maxDates : List DateV → Option DateV
  | [] => none
  | d :: rest => some (rest.foldl maxD d)

/-- Python round(x, 2) modelled exactly on rationals: half-even rounding
to two decimal places. -/
def roundHalfEven (x : ℚ) : ℤ :=
  let f := Int.floor x
  if x - f < 1 / 2 then f
  else if (1 : ℚ) / 2 < x - f then f + 1
  else if f % 2 = 0 then f else f + 1

def round2 (x : ℚ) : ℚ :=
  (roundHalfEven (x * 100) : ℚ) / 100

structure SummaryAverages where
  words_per_page : ℚ
  tables_per_page : ℚ
  code_blocks_per_page : ℚ
  comments_per_page : ℚ
deriving DecidableEq, Repr

structure DateRange where
  oldest_page : Option DateV
  newest_page : Option DateV
deriving DecidableEq, Repr

/-- The summary dict.  On an empty corpus the source returns only
total_pages and generated_at; the other keys are absent (none). -/
structure Summary where
  total_pages : Nat
  total_words : Option Nat
  total_tables : Option Nat
  total_code_blocks : Option Nat
  total_comments : Option Nat
  averages : Option SummaryAverages
  date_range : Option DateRange
  generated_at : String
deriving DecidableEq, Repr

/-- Number of whitespace-separated words of the content. -/
def wordCount (s : String) : Nat :=
  (splitWsCore s.toList).length

/-- generate_summary.  A ValueError from fromisoformat escapes the
comprehension and is re-raised by the outer handler as a
ProcessingError. -/
def generateSummary (pages : List Doc) (now : String) : Except String Summary :=
  if pages.length = 0 then
    .ok (Summary.mk 0 none none none none none none now)
  else
    let totalWords := (pages.map (fun p => wordCount p.content)).sum
    let totalTables := (pages.map (fun p => p.tables.length)).sum
    let totalCode := (pages.map (fun p => p.code_blocks.length)).sum
    let totalComments := (pages.map (fun p => p.comments.length)).sum
    let n : ℚ := (pages.length : ℚ)
    match collectDates pages with
    | .error e => .error ("Failed to generate summary: " ++ e)
    | .ok dates =>
      .ok (Summary.mk pages.length (some totalWords) (some totalTables)
        (some totalCode) (some totalComments)
        (some (SummaryAverages.mk (round2 ((totalWords : ℚ) / n))
          (round2 ((totalTables : ℚ) / n)) (round2 ((totalCode : ℚ) / n))
          (round2 ((totalComments : ℚ) / n))))
        (some (DateRange.mk (minDates dates) (maxDates dates))) now)

/-! ### analyze_content_quality -/

/-- Mean of a list of rationals (np.mean); the analyzer only takes it on
non-empty lists.  On [] the rational division yields 0. -/
def meanQ (l : List ℚ) : ℚ :=
  l.sum / (l.length : ℚ)

/-- Python min on two numbers (executable on rationals). -/
def minq (a b : ℚ) : ℚ :=
  if a ≤ b then a else b

/-- Python max on two numbers (executable on rationals). -/
def maxq (a b : ℚ) : ℚ :=
  if b ≤ a then a else b

def minQ : List ℚ → ℚ
  | [] => 0
  | x :: rest => rest.foldl minq x

def maxQ : List ℚ → ℚ
  | [] => 0
  | x :: rest => rest.foldl maxq x

/-- Simplified Flesch reading ease of the source: words = content.split();
sentences = the fragment count of re.split on [.!?]+ ; the score is
clamped into the 0..100 band by max and min. -/
def readabilityScore (content : String) : ℚ :=
  let words : ℚ := ((splitWsCore content.toList).length : ℚ)
  let sentences : Nat := (splitPunct content.toList).length
  let avg : ℚ := words / ((Nat.max sentences 1 : Nat) : ℚ)
  maxq 0 (minq 100 ((206835 : ℚ) / 1000 - (1015 : ℚ) / 1000 * avg))

/-- Modelled from the spec (section 4.7 wording of claim C3): the same
formula with the sentence count taken as the number of punctuation-run
terminated sentences of the content, for comparison with the source
formula. -/
def readabilitySpec (content : String) : ℚ :=
  let words : ℚ := ((splitWsCore content.toList).length : ℚ)
  let sentences : Nat := countPunctRuns content.toList false
  let avg : ℚ := words / ((Nat.max sentences 1 : Nat) : ℚ)
  maxq 0 (minq 100 ((206835 : ℚ) / 1000 - (1015 : ℚ) / 1000 * avg))

/-- Fraction of the five required document fields that are truthy, times
one hundred.  The required list of the source names content, metadata,
tables, code_blocks and comments (not attachments). -/
def contentCompleteness (d : Doc) : ℚ :=
  let fields : List Bool :=
    [!(d.content = ""), d.metadata.isSome, !d.tables.isEmpty,
     !d.code_blocks.isEmpty, !d.comments.isEmpty]
  ((fields.countP id : Nat) : ℚ) / 5 * 100

/-- Fraction of the five required metadata keys with truthy values,
times one hundred; a document whose metadata is the empty dict scores
zero. -/
def metadataCompleteness (d : Doc) : ℚ :=
  match d.metadata with
  | none => 0
  | some m =>
    let fields : List Bool :=
      [!(m.id = ""), !(m.title = ""), !(m.url = ""), m.version.truthy,
       !(m.last_modified = "")]
    ((fields.countP id : Nat) : ℚ) / 5 * 100

/-- Fraction of the five literal tag substrings found in the content,
times one hundred. -/
def formattingQuality (content : String) : ℚ :=
  let inds : List Bool :=
    [containsSub "<h1>".toList content.toList,
     containsSub "<h2>".toList content.toList,
     containsSub "<p>".toList content.toList,
     containsSub "<table>".toList content.toList,
     containsSub "<code>".toList content.toList]
  ((inds.countP id : Nat) : ℚ) / 5 * 100

structure QualityAverages where
  readability : ℚ
  content_completeness : ℚ
  metadata_completeness : ℚ
  formatting_quality : ℚ
deriving DecidableEq, Repr

structure QualityRanges where
  readability : ℚ × ℚ
  content_completeness : ℚ × ℚ
  metadata_completeness : ℚ × ℚ
  formatting_quality : ℚ × ℚ
deriving DecidableEq, Repr

structure QReport where
  averages : QualityAverages
  ranges : QualityRanges
  quality_score : ℚ
deriving DecidableEq, Repr

/-- The per-document score lists the analyzer accumulates in its loop. -/
def qualityMetrics (pages : List Doc) : List ℚ × List ℚ × List ℚ × List ℚ :=
  (pages.map (fun p => readabilityScore p.content),
   pages.map contentCompleteness,
   pages.map metadataCompleteness,
   pages.map (fun p => formattingQuality p.content))

/-- analyze_content_quality: all-zero defaults on the empty corpus,
otherwise means, ranges and the mean-of-means quality score. -/
def analyzeContentQuality (pages : List Doc) : QReport :=
  if pages.isEmpty then
    QReport.mk (QualityAverages.mk 0 0 0 0)
      (QualityRanges.mk (0, 0) (0, 0) (0, 0) (0, 0)) 0
  else
    let m := qualityMetrics pages
    let rs := m.1
    let cc := m.2.1
    let mc := m.2.2.1
    let fq := m.2.2.2
    QReport.mk
      (QualityAverages.mk (meanQ rs) (meanQ cc) (meanQ mc) (meanQ fq))
      (QualityRanges.mk (minQ rs, maxQ rs) (minQ cc, maxQ cc)
        (minQ mc, maxQ mc) (minQ fq, maxQ fq))
      (meanQ [meanQ rs, meanQ cc, meanQ mc, meanQ fq])

/-! ### Auxiliary definitions used by the theorems -/

/-- The scanner state after a text, none when a match completed inside. -/
def runState : MfSt → List Char → Option MfSt
  | s, [] => some s
  | s, c :: rest =>
    match mfStep s c with
    | none => none
    | some s2 => runState s2 rest

def isOkE {α : Type} : Except String α → Bool
  | .ok _ => true
  | .error _ => false

/-- The parsed dates of the documents with a truthy, parseable
last_modified (the claim reading of the date range input). -/
def datesOf (pages : List Doc) : List DateV :=
  pages.filterMap (fun d => if lmOf d = "" then none else parseIsoDate (lmOf d))

/-- Checker for the canonical shape of collapsed text: single interior
spaces, no other whitespace, no leading or trailing whitespace.
State 0 = at the start, 1 = inside a word, 2 = right after a
separating space. -/
def canonB : Nat → List Char → Bool
  | 0, [] => true
  | 1, [] => true
  | _, [] => false
  | st, c :: rest =>
    if c = ' ' then (if st = 1 then canonB 2 rest else false)
    else if isWsC c then false
    else canonB 1 rest

/-! ### Concrete inputs of the claims -/

/-- The end-to-end scenario page of claim C2. -/
def c2page : Page :=
  Page.mk (some "1") (some "T")
    (some "<p>Hello</p><table><tr><th>A</th></tr><tr><td>1</td></tr></table>")
    (some "u") (some (JVal.int 1)) (some "2024-01-01T00:00:00") none none

/-- Three hundred words followed by a single full stop: the pathological
ratio separating the two sentence-count readings of claim C3. -/
def c3content : String :=
  String.mk ((List.replicate 299 ['w', ' ']).flatten ++ ['w', '.'])

def c3doc : Doc :=
  Doc.mk c3content none [] [] [] []

/-- A document whose last_modified is truthy but not a parseable ISO
date (claim C5). -/
def c5doc : Doc :=
  Doc.mk "" (some (Metadata.mk "1" "" "" (JVal.str "") "notadate" "confluence" ""))
    [] [] [] []

def c5docGood : Doc :=
  Doc.mk "" (some (Metadata.mk "2" "" "" (JVal.str "") "2024-01-02" "confluence" ""))
    [] [] [] []

def c5docMissing : Doc :=
  Doc.mk "" none [] [] [] []

def w5pages : List Doc :=
  [c5docGood, c5docMissing]

/-- One malformed table (no rows at all) followed by one parseable table
(claim C6). -/
def c6page : Page :=
  pageOfContent "<table></table><table><tr><th>A</th></tr><tr><td>1</td></tr></table>"

def c6bad : ElemT :=
  ElemT.mk "table" [] Forest.nil

def c6good : ElemT :=
  ElemT.mk "table" []
    (Forest.elemF "tr" [] (Forest.elemF "th" [] (Forest.textF ['A'] Forest.nil) Forest.nil)
      (Forest.elemF "tr" [] (Forest.elemF "td" [] (Forest.textF ['1'] Forest.nil) Forest.nil)
        Forest.nil))

/-- A plain page for the idempotence witness (claim C7). -/
def c7wpage : Page :=
  pageOfContent "<p>Hello world</p>"

/-- A nested code block (claim C10). -/
def c10page : Page :=
  pageOfContent "<pre><code>x</code></pre>"

/-- An extractor set with a failing text extractor and a failing
metadata extractor (claim C1 witness). -/
def c1exts : ExtractorSet :=
  ExtractorSet.mk
    (fun _ => .error "boom")
    (fun _ => .ok [])
    (fun _ => .ok [])
    (fun _ => .error "meta boom")
    (fun _ => .ok [])
    (fun _ => .ok [])

/-! ## Theorems -/

/-- C1: for every page and every pattern of extractor outcomes, the
orchestrator never fails: each extractor that throws has its field
replaced by the type-appropriate empty default (empty string for text,
empty dict for metadata, empty list otherwise), each extractor that
succeeds contributes its value unchanged, and the returned document is
total in all six fields by construction. -/
theorem claim_C1 (exts : ExtractorSet) (p : Page) :
    (∀ e, exts.text p = .error e → (processPageX exts p).content = "")
  ∧ (∀ v, exts.text p = .ok v → (processPageX exts p).content = v)
  ∧ (∀ e, exts.metadata p = .error e → (processPageX exts p).metadata = none)
  ∧ (∀ v, exts.metadata p = .ok v → (processPageX exts p).metadata = some v)
  ∧ (∀ e, exts.tables p = .error e → (processPageX exts p).tables = [])
  ∧ (∀ v, exts.tables p = .ok v → (processPageX exts p).tables = v)
  ∧ (∀ e, exts.code p = .error e → (processPageX exts p).code_blocks = [])
  ∧ (∀ v, exts.code p = .ok v → (processPageX exts p).code_blocks = v)
  ∧ (∀ e, exts.attachments p = .error e → (processPageX exts p).attachments = [])
  ∧ (∀ v, exts.attachments p = .ok v → (processPageX exts p).attachments = v)
  ∧ (∀ e, exts.comments p = .error e → (processPageX exts p).comments = [])
  ∧ (∀ v, exts.comments p = .ok v → (processPageX exts p).comments = v) := by
  refine ⟨?_, ?_, ?_, ?_, ?_, ?_, ?_, ?_, ?_, ?_, ?_, ?_⟩ <;>
    (intro x h; simp [processPageX, recoverD, okOpt, h])

/-- Witness for C1 at a concrete page and a concrete extractor set whose
text and metadata extractors throw. -/
theorem claim_C1_witness :
    (processPageX c1exts (pageOfContent "x")).content = ""
  ∧ (processPageX c1exts (pageOfContent "x")).metadata = none :=
  ⟨(claim_C1 c1exts (pageOfContent "x")).1 "boom" rfl,
   (claim_C1 c1exts (pageOfContent "x")).2.2.1 "meta boom" rfl⟩

/-- C9: no extractor, and not the orchestrator, mutates the input page:
every page access in the source is a read, and the embedding that
threads the page value through all of them returns it unchanged. -/
theorem claim_C9 (p : Page) (now : String) :
    (processPageM p now).2 = p
  ∧ (processTextM p).2 = p
  ∧ (processTablesM p).2 = p
  ∧ (processCodeM p).2 = p
  ∧ (processMetadataM p now).2 = p
  ∧ (processAttachmentsM p).2 = p
  ∧ (processCommentsM p).2 = p := by
  refine ⟨?_, rfl, ?_, ?_, rfl, rfl, rfl⟩
  · simp only [processPageM, processTextM, processTablesM, processCodeM,
      processMetadataM, processAttachmentsM, processCommentsM]
    split <;> rfl
  · simp only [processTablesM]
    split <;> rfl
  · simp only [processCodeM]
    split <;> rfl

/-- C2 counterexample: on the end-to-end scenario page the processed
content is the text of the whole page including the table cells, not
just the paragraph, and the table cell is the integer 1 produced by the
pandas type inference, not the string 1. -/
theorem claim_C2_cx :
    (processPageX (realExtractors "2024-01-01T00:00:01") c2page).content = "Hello A 1"
  ∧ ¬ (processPageX (realExtractors "2024-01-01T00:00:01") c2page).content = "Hello"
  ∧ (processPageX (realExtractors "2024-01-01T00:00:01") c2page).tables
      = [TableT.mk [CellV.strV "A"] [[CellV.intV 1]] (1, 1)]
  ∧ ¬ (processPageX (realExtractors "2024-01-01T00:00:01") c2page).tables
      = [TableT.mk [CellV.strV "A"] [[CellV.strV "1"]] (1, 1)] := by
  refine ⟨by decide, by decide, by decide, by decide⟩

/-- C2 amended: the end-to-end scenario yields content Hello A 1 (the
text extractor keeps the visible table text), table headers A, table
data the single integer cell 1, and metadata source confluence. -/
theorem claim_C2 :
    (processPageX (realExtractors "2024-01-01T00:00:01") c2page).content = "Hello A 1"
  ∧ ((processPageX (realExtractors "2024-01-01T00:00:01") c2page).tables.map
      TableT.headers) = [[CellV.strV "A"]]
  ∧ ((processPageX (realExtractors "2024-01-01T00:00:01") c2page).tables.map
      TableT.data) = [[[CellV.intV 1]]]
  ∧ ((processPageX (realExtractors "2024-01-01T00:00:01") c2page).metadata.map
      Metadata.source) = some "confluence" := by
  refine ⟨by decide, by decide, by decide, by decide⟩

/-- C4 counterexample: on the empty corpus generate_summary returns a
summary carrying only total_pages and the timestamp; the word, table,
code-block and comment counts are absent from the result, not zero. -/
theorem claim_C4_cx :
    generateSummary [] "2024-01-01T00:00:00"
      = .ok (Summary.mk 0 none none none none none none "2024-01-01T00:00:00")
  ∧ ¬ (Summary.mk 0 none none none none none none "2024-01-01T00:00:00").total_words
      = some 0 := by
  exact ⟨rfl, by decide⟩

/-- C4 amended: on the empty corpus neither analyzer operation fails:
generate_summary returns total_pages zero with a timestamp and omits
every other aggregate (counts, averages, date range), and
analyze_content_quality returns all-zero averages, ranges and quality
score. -/
theorem claim_C4 (now : String) :
    generateSummary [] now = .ok (Summary.mk 0 none none none none none none now)
  ∧ analyzeContentQuality []
      = QReport.mk (QualityAverages.mk 0 0 0 0)
          (QualityRanges.mk (0, 0) (0, 0) (0, 0) (0, 0)) 0 :=
  ⟨rfl, rfl⟩

/-! ### Lemmas for the date range (C5) -/

theorem collectDates_ok (pages : List Doc)
    (h : ∀ d ∈ pages, lmOf d = "" ∨ (parseIsoDate (lmOf d)).isSome = true) :
    collectDates pages = .ok (datesOf pages) := by
  induction pages with
  | nil => rfl
  | cons d rest ih =>
    have hd := h d (by simp)
    have hrest : ∀ x ∈ rest, lmOf x = "" ∨ (parseIsoDate (lmOf x)).isSome = true :=
      fun x hx => h x (by simp [hx])
    by_cases hlm : lmOf d = ""
    · simp [collectDates, datesOf, List.filterMap_cons, hlm, ih hrest]
    · have h1 : (parseIsoDate (lmOf d)).isSome = true := hd.resolve_left hlm
      obtain ⟨dt, hdt⟩ := Option.isSome_iff_exists.mp h1
      simp only [collectDates, datesOf, List.filterMap_cons, hlm, hdt, if_neg hlm]
      rw [show collectDates rest = .ok (datesOf rest) from ih hrest]
      simp [Except.map, datesOf]

/-- C5 corrected: for a non-empty corpus in which every document either
has no truthy last_modified or a parseable one, generate_summary
succeeds and computes the date range from exactly the parseable dates;
documents with a missing or empty last_modified are excluded from the
range without error.  (The original claim fails for unparseable values:
see the counterexample.) -/
theorem claim_C5 (pages : List Doc) (now : String) (hne : pages ≠ [])
    (h : ∀ d ∈ pages, lmOf d = "" ∨ (parseIsoDate (lmOf d)).isSome = true) :
    (generateSummary pages now).map Summary.date_range
      = .ok (some (DateRange.mk (minDates (datesOf pages))
          (maxDates (datesOf pages)))) := by
  have hlen : ¬ pages.length = 0 := by
    simpa [List.length_eq_zero] using hne
  simp only [generateSummary, if_neg hlen, collectDates_ok pages h, Except.map]

/-- Witness for C5: a corpus of one document with a parseable date and
one with no metadata at all. -/
theorem claim_C5_witness :
    w5pages ≠ ([] : List Doc)
  ∧ (generateSummary w5pages "t").map Summary.date_range
      = .ok (some (DateRange.mk (minDates (datesOf w5pages))
          (maxDates (datesOf w5pages)))) :=
  ⟨by decide, claim_C5 w5pages "t" (by decide) (by decide)⟩

/-- C5 counterexample: a document whose last_modified is truthy but
unparseable makes generate_summary raise a ProcessingError instead of
being excluded from the date range. -/
theorem claim_C5_cx :
    generateSummary [c5doc] "2024-01-01T00:00:00"
      = .error "Failed to generate summary: Invalid isoformat string: notadate" := by
  rfl

/-! ### Lemmas for the table extractor (C6) -/

theorem filterMap_ok_length (l : List ElemT)
    (h : ∀ t ∈ l, isOkE (readHtml t) = true) :
    (l.filterMap (fun t => (readHtml t).toOption)).length = l.length := by
  induction l with
  | nil => rfl
  | cons a rest ih =>
    have ha := h a (by simp)
    have hr : ∀ x ∈ rest, isOkE (readHtml x) = true := fun x hx => h x (by simp [hx])
    cases hrh : readHtml a with
    | ok v =>
      have hfa : (fun t => (readHtml t).toOption) a = some v := by
        simp [hrh, Except.toOption]
      rw [@List.filterMap_cons_some ElemT TableT (fun t => (readHtml t).toOption) a rest v hfa,
        List.length_cons, ih hr, List.length_cons]
    | error e => rw [hrh] at ha; simp [isOkE] at ha

/-- C6: the table extractor returns the empty list when the parsed
content has no table element, and when the table elements consist of
one un-parseable table among parseable ones it returns exactly one
entry per parseable table: the malformed table is skipped without
aborting the others and without failing. -/
theorem claim_C6 (p : Page) :
    ((findAllF ["table"] (parseHtml (p.content.getD "")) = []) → processTables p = [])
  ∧ (∀ (a b : List ElemT) (bad : ElemT),
      findAllF ["table"] (parseHtml (p.content.getD "")) = a ++ bad :: b →
      (∀ t ∈ a, isOkE (readHtml t) = true) →
      isOkE (readHtml bad) = false →
      (∀ t ∈ b, isOkE (readHtml t) = true) →
      (processTables p).length = a.length + b.length) := by
  constructor
  · intro h
    by_cases hc : p.content.getD "" = ""
    · simp [processTables, processTablesM, hc]
    · simp [processTables, processTablesM, hc, h]
  · intro a b bad h ha hbad hb
    by_cases hc : p.content.getD "" = ""
    · rw [hc] at h
      have hnil : findAllF ["table"] (parseHtml "") = [] := rfl
      rw [hnil] at h
      exact absurd h.symm (by simp)
    · have hpt : processTables p
          = List.filterMap (fun t => (readHtml t).toOption) (a ++ bad :: b) := by
        simp only [processTables, processTablesM, if_neg hc, h]
      cases hrb : readHtml bad with
      | ok v => rw [hrb] at hbad; simp [isOkE] at hbad
      | error e =>
        have hfb : (fun t => (readHtml t).toOption) bad = none := by
          simp [hrb, Except.toOption]
        rw [hpt, List.filterMap_append,
          @List.filterMap_cons_none ElemT TableT (fun t => (readHtml t).toOption) bad b hfb,
          List.length_append, filterMap_ok_length a ha, filterMap_ok_length b hb]

/-- Witness for C6: a page with one empty (un-parseable) table followed
by one parseable table yields exactly one entry. -/
theorem claim_C6_witness :
    findAllF ["table"] (parseHtml (c6page.content.getD "")) = [] ++ c6bad :: [c6good]
  ∧ (processTables c6page).length = ([] : List ElemT).length + [c6good].length :=
  ⟨by decide,
   (claim_C6 c6page).2 [] [c6good] c6bad (by decide) (by decide) (by decide) (by decide)⟩

/-! ### Lemmas for the readability score (C3) -/

theorem splitPunctGo_length (l : List Char) :
    ∀ (inP : Bool) (acc : List Char),
      (splitPunctGo inP acc l).length = countPunctRuns l inP + 1 := by
  induction l with
  | nil => intro inP acc; rfl
  | cons c rest ih =>
    intro inP acc
    by_cases hp : isPunctC c = true
    · cases inP <;> simp [splitPunctGo, countPunctRuns, hp, ih]
    · simp [splitPunctGo, countPunctRuns, hp, ih]

theorem clamp_bounds (x : ℚ) :
    0 ≤ maxq 0 (minq 100 x) ∧ maxq 0 (minq 100 x) ≤ 100 := by
  unfold maxq minq
  split_ifs <;> constructor <;> linarith

/-- C3 corrected: the per-document readability score used by the
analyzer is the clamped Flesch formula whose divisor is the fragment
count of re.split (one more than the number of punctuation runs), not
the number of punctuation-terminated runs; the score always lies in the
0..100 band, and the analyzer averages exactly these scores.  (The
original formula with the terminated-run count differs: see the
counterexample.) -/
theorem claim_C3 (pages : List Doc) (d : Doc) (hd : d ∈ pages) :
    (0 ≤ readabilityScore d.content ∧ readabilityScore d.content ≤ 100)
  ∧ readabilityScore d.content
      = maxq 0 (minq 100 ((206835 : ℚ) / 1000 - (1015 : ℚ) / 1000 *
          (((splitWsCore d.content.toList).length : ℚ)
            / ((Nat.max (countPunctRuns d.content.toList false + 1) 1 : Nat) : ℚ))))
  ∧ (analyzeContentQuality pages).averages.readability
      = meanQ (pages.map (fun q => readabilityScore q.content)) := by
  refine ⟨clamp_bounds _, ?_, ?_⟩
  · simp only [readabilityScore, splitPunct, splitPunctGo_length]
  · cases pages with
    | nil => simp at hd
    | cons q rest => simp [analyzeContentQuality, qualityMetrics]

/-- Witness for C3 at the pathological three-hundred-word document. -/
theorem claim_C3_witness :
    c3doc ∈ [c3doc]
  ∧ (0 ≤ readabilityScore c3doc.content ∧ readabilityScore c3doc.content ≤ 100) :=
  ⟨List.mem_cons_self c3doc [], (claim_C3 [c3doc] c3doc (List.mem_cons_self c3doc [])).1⟩

/-- C3 counterexample: on three hundred words ending in one full stop
the code computes 54.585 (dividing by the two re.split fragments) while
the claimed formula with the terminated-run count computes 0. -/
theorem claim_C3_cx :
    (analyzeContentQuality [c3doc]).averages.readability = 54585 / 1000
  ∧ readabilitySpec c3doc.content = 0
  ∧ ¬ (analyzeContentQuality [c3doc]).averages.readability
      = readabilitySpec c3doc.content := by
  have hw : (splitWsCore c3content.toList).length = 300 := by decide
  have hs : (splitPunct c3content.toList).length = 2 := by decide
  have hr : countPunctRuns c3content.toList false = 1 := by decide
  have hscore : readabilityScore c3content = 54585 / 1000 := by
    simp only [readabilityScore, hw, hs]
    norm_num [minq, maxq]
  have hspec : readabilitySpec c3content = 0 := by
    simp only [readabilitySpec, hw, hr]
    norm_num [minq, maxq]
  have havg : (analyzeContentQuality [c3doc]).averages.readability
      = readabilityScore c3content := by
    simp [analyzeContentQuality, qualityMetrics, meanQ, c3doc]
  refine ⟨havg.trans hscore, hspec, ?_⟩
  rw [havg, hscore]
  show ¬ (54585 / 1000 : ℚ) = readabilitySpec c3doc.content
  rw [show readabilitySpec c3doc.content = readabilitySpec c3content from rfl, hspec]
  norm_num

/-! ### C10: nested code blocks -/

/-- C10: when the content parses to a pre element whose only child is a
code element, the code-block extractor emits one entry for the pre and
one for the nested code — the single visible fragment appears twice,
with identical text. -/
theorem claim_C10 (p : Page) (pcls ccls : List String) (inner sib : Forest)
    (h : parseHtml (p.content.getD "")
      = Forest.elemF "pre" pcls (Forest.elemF "code" ccls inner Forest.nil) sib)
    (hinner : findAllF ["code", "pre"] inner = []) :
    processCode p
      = CodeBlock.mk (langOf pcls) (String.mk (getTextS [] inner))
        :: CodeBlock.mk (langOf ccls) (String.mk (getTextS [] inner))
        :: (findAllF ["code", "pre"] sib).map
            (fun e => CodeBlock.mk (langOf e.classes) (String.mk (getTextS [] e.kids))) := by
  have hc : ¬ p.content.getD "" = "" := by
    intro hc
    rw [hc] at h
    have hnil : parseHtml "" = Forest.nil := rfl
    rw [hnil] at h
    exact Forest.noConfusion h
  simp only [processCode, processCodeM, if_neg hc, h]
  simp [findAllF, hinner, getTextS, stringsF]

/-- Witness for C10: the fragment pre code x appears twice. -/
theorem claim_C10_witness :
    processCode c10page = [CodeBlock.mk "text" "x", CodeBlock.mk "text" "x"] := by
  rw [claim_C10 c10page [] [] (Forest.textF ['x'] Forest.nil) Forest.nil (by decide)
    (by decide)]
  decide

/-! ### The tag-pattern scanner: soundness lemmas -/

theorem wsS_idem (s : MfSt) : wsS (wsS s) = wsS s := by
  cases s <;> rfl

theorem mfRun_of_noGt (l : List Char) :
    ∀ s : MfSt, (∀ c ∈ l, ¬ c = '>') → mfRun s l = true := by
  induction l with
  | nil => intro s _; rfl
  | cons c rest ih =>
    intro s h
    have hc : ¬ c = '>' := h c (by simp)
    have hstep : ∃ s2, mfStep s c = some s2 := by
      cases s with
      | clean => by_cases h2 : c = '<' <;> simp [mfStep, h2]
      | lt m => simp [mfStep, hc]
    obtain ⟨s2, hs2⟩ := hstep
    simp only [mfRun, hs2]
    exact ih s2 (fun x hx => h x (by simp [hx]))

theorem mfRun_append (x : List Char) : ∀ (s : MfSt) (y : List Char),
    (mfRun s (x ++ y) = true ↔ ∃ s2, runState s x = some s2 ∧ mfRun s2 y = true) := by
  induction x with
  | nil => intro s y; simp [runState]
  | cons c rest ih =>
    intro s y
    cases hs : mfStep s c with
    | none => simp [mfRun, runState, hs]
    | some s2 => simp [mfRun, runState, hs, ih s2 y]

theorem noGt_of_run_ltTrue (l : List Char) :
    mfRun (.lt true) l = true → ∀ c ∈ l, ¬ c = '>' := by
  induction l with
  | nil => intro _ c hc; simp at hc
  | cons c rest ih =>
    intro h x hx
    by_cases hc : c = '>'
    · subst hc; simp [mfRun, mfStep] at h
    · have hstep : mfStep (.lt true) c = some (.lt true) := by simp [mfStep, hc]
      rw [show mfRun (MfSt.lt true) (c :: rest) = mfRun (MfSt.lt true) rest by
        simp [mfRun, hstep]] at h
      rcases List.mem_cons.mp hx with h1 | h1
      · subst h1; exact hc
      · exact ih h x h1

theorem runState_lt_word (w : List Char) : ∀ (m : Bool), w ≠ [] →
    (∀ c ∈ w, ¬ c = '>') → runState (.lt m) w = some (.lt true) := by
  induction w with
  | nil => intro m h _; exact absurd rfl h
  | cons c rest ih =>
    intro m _ h
    have hc := h c (by simp)
    have hstep : mfStep (.lt m) c = some (.lt true) := by simp [mfStep, hc]
    cases rest with
    | nil => simp [runState, hstep]
    | cons d r2 =>
      simp only [runState, hstep]
      exact ih true (by simp) (fun x hx => h x (by simp [hx]))

theorem run_false_of_match (a w b : List Char) (hw : w ≠ [])
    (hgt : ∀ c ∈ w, ¬ c = '>') :
    mfRun .clean (a ++ '<' :: (w ++ '>' :: b)) = false := by
  cases hres : mfRun .clean (a ++ '<' :: (w ++ '>' :: b)) with
  | false => rfl
  | true =>
    exfalso
    obtain ⟨s1, _, hrun1⟩ := (mfRun_append a .clean _).mp hres
    have hstep : ∃ m, mfStep s1 '<' = some (.lt m) := by
      cases s1 <;> simp [mfStep]
    obtain ⟨m, hm⟩ := hstep
    have hrun2 : mfRun (.lt m) (w ++ '>' :: b) = true := by
      simpa [mfRun, hm] using hrun1
    obtain ⟨s3, hs3, hrun3⟩ := (mfRun_append w _ _).mp hrun2
    rw [runState_lt_word w m hw hgt] at hs3
    cases hs3
    simp [mfRun, mfStep] at hrun3

theorem isPreC_decomp (pat : List Char) : ∀ l, isPreC pat l = true →
    ∃ t, l = pat ++ t := by
  induction pat with
  | nil => intro l _; exact ⟨l, rfl⟩
  | cons a as ih =>
    intro l h
    cases l with
    | nil => simp [isPreC] at h
    | cons b bs =>
      simp only [isPreC, Bool.and_eq_true, decide_eq_true_eq] at h
      obtain ⟨t, ht⟩ := ih bs h.2
      exact ⟨t, by simp [h.1.symm, ht]⟩

theorem containsSub_decomp (pat : List Char) : ∀ l, containsSub pat l = true →
    ∃ x y, l = x ++ pat ++ y := by
  intro l
  induction l with
  | nil =>
    intro h
    simp only [containsSub] at h
    obtain ⟨t, ht⟩ := isPreC_decomp pat [] h
    exact ⟨[], t, by simpa using ht⟩
  | cons c rest ih =>
    intro h
    simp only [containsSub, Bool.or_eq_true] at h
    rcases h with h | h
    · obtain ⟨t, ht⟩ := isPreC_decomp pat _ h
      exact ⟨[], t, by simpa using ht⟩
    · obtain ⟨x, y, hxy⟩ := ih h
      exact ⟨c :: x, y, by simp [hxy]⟩

theorem not_containsSub_of_tagFree (l w : List Char) (hfree : tagFree l = true)
    (hw : w ≠ []) (hgt : ∀ c ∈ w, ¬ c = '>') :
    containsSub ('<' :: (w ++ ['>'])) l = false := by
  cases hres : containsSub ('<' :: (w ++ ['>'])) l with
  | false => rfl
  | true =>
    exfalso
    obtain ⟨x, y, hxy⟩ := containsSub_decomp _ _ hres
    have hfalse : mfRun .clean l = false := by
      rw [hxy]
      have := run_false_of_match x w y hw hgt
      simpa [List.append_assoc] using this
    rw [tagFree, hfalse] at hfree
    exact Bool.false_ne_true hfree

theorem tagFree_tagSubGo (l : List Char) :
    mfRun .clean (tagSubGo none l) = true
  ∧ ∀ buf, (∀ c ∈ buf, ¬ c = '>') → mfRun .clean (tagSubGo (some buf) l) = true := by
  induction l with
  | nil =>
    refine ⟨rfl, ?_⟩
    intro buf hbuf
    simp only [tagSubGo]
    have hstep : mfStep .clean '<' = some (.lt false) := by simp [mfStep]
    simp only [mfRun, hstep]
    exact mfRun_of_noGt _ _ (fun c hc => hbuf c (List.mem_reverse.mp hc))
  | cons c rest ih =>
    refine ⟨?_, ?_⟩
    · by_cases hc : c = '<'
      · subst hc
        simp only [tagSubGo, if_pos rfl]
        exact ih.2 [] (by simp)
      · simp only [tagSubGo, if_neg hc]
        have hstep : mfStep .clean c = some .clean := by simp [mfStep, hc]
        simp only [mfRun, hstep]
        exact ih.1
    · intro buf hbuf
      by_cases hc : c = '>'
      · subst hc
        simp only [tagSubGo, if_pos rfl]
        by_cases hb : buf.isEmpty
        · simp only [hb, if_pos rfl]
          have h1 : mfStep .clean '<' = some (.lt false) := by simp [mfStep]
          have h2 : mfStep (MfSt.lt false) '>' = some .clean := by simp [mfStep]
          simp only [mfRun, h1, h2]
          exact ih.1
        · simp only [hb, if_neg]
          exact ih.1
      · simp only [tagSubGo, if_neg hc]
        refine ih.2 (c :: buf) ?_
        intro x hx
        rcases List.mem_cons.mp hx with h1 | h1
        · subst h1; exact hc
        · exact hbuf x h1

theorem wsS_mfStep (s : MfSt) (c : Char) (h : isWsC c = true) :
    mfStep s c = some (wsS s) := by
  have h1 : ¬ c = '<' ∧ ¬ c = '>' := by
    refine ⟨fun he => absurd h (by subst he; decide),
            fun he => absurd h (by subst he; decide)⟩
  cases s with
  | clean => simp [mfStep, wsS, h1.1]
  | lt m => simp [mfStep, wsS, h1.2]

theorem mfRun_clps (l : List Char) : ∀ (t : Nat) (s : MfSt),
    (t = 0 → wsS s = s) →
    mfRun (if t = 2 then wsS s else s) l = true →
    mfRun s (clpsGo t l) = true := by
  induction l with
  | nil => intro t s _ _; rfl
  | cons c rest ih =>
    intro t s h0 h
    by_cases hws : isWsC c = true
    · simp only [clpsGo, if_pos hws]
      have hstep := wsS_mfStep (if t = 2 then wsS s else s) c hws
      have h2 : mfRun (wsS (if t = 2 then wsS s else s)) rest = true := by
        simpa [mfRun, hstep] using h
      by_cases ht : t = 0
      · subst ht
        simp only [if_pos rfl]
        refine ih 0 s h0 ?_
        have h3 : wsS s = s := h0 rfl
        simpa [h3] using h2
      · rw [if_neg ht]
        refine ih 2 s (fun habs => absurd habs (by decide)) ?_
        rw [if_pos rfl]
        by_cases ht3 : t = 2
        · rw [if_pos ht3] at h2; rwa [wsS_idem] at h2
        · rwa [if_neg ht3] at h2
    · simp only [clpsGo, if_neg hws]
      by_cases ht : t = 2
      · rw [if_pos ht]
        have hsp : mfStep s ' ' = some (wsS s) := wsS_mfStep s ' ' (by decide)
        rw [if_pos ht] at h
        cases hstep : mfStep (wsS s) c with
        | none => simp [mfRun, hstep] at h
        | some s2 =>
          have hrest : mfRun s2 rest = true := by simpa [mfRun, hstep] using h
          show mfRun s (' ' :: c :: clpsGo 1 rest) = true
          simp only [mfRun, hsp, hstep]
          exact ih 1 s2 (fun h1 => absurd h1 (by decide)) (by simpa using hrest)
      · rw [if_neg ht]
        rw [if_neg ht] at h
        simp only [List.nil_append]
        cases hstep : mfStep s c with
        | none => simp [mfRun, hstep] at h
        | some s2 =>
          have hrest : mfRun s2 rest = true := by simpa [mfRun, hstep] using h
          simp only [mfRun, hstep]
          exact ih 1 s2 (fun h1 => absurd h1 (by decide)) (by simpa using hrest)

theorem tagFree_clps (l : List Char) (h : tagFree l = true) :
    tagFree (clpsGo 0 l) = true :=
  mfRun_clps l 0 .clean (fun _ => rfl) (by simpa [tagFree] using h)

/-- The cleaned text of any markup never contains a match of the tag
pattern: the regular-expression pass removes every match and neither the
pass itself nor whitespace collapsing can create a new one. -/
theorem tagFree_cleanText (c : String) : tagFree (cleanText c).toList = true := by
  show tagFree (collapseWs (tagSub (getTextS [' '] (stripSS (parseHtml c))))) = true
  exact tagFree_clps _ ((tagFree_tagSubGo _).1)

/-! ### C8: formatting-quality score of processed content -/

/-- C8: whenever the text extractor succeeds, the content of the
processed document contains none of the five literal tag substrings the
formatting heuristic looks for, so the per-document formatting-quality
score of analyze_content_quality is exactly zero. -/
theorem claim_C8 (exts : ExtractorSet) (p : Page)
    (h : exts.text p = Except.ok (processText p)) :
    (containsSub "<h1>".toList (processPageX exts p).content.toList = false
   ∧ containsSub "<h2>".toList (processPageX exts p).content.toList = false
   ∧ containsSub "<p>".toList (processPageX exts p).content.toList = false
   ∧ containsSub "<table>".toList (processPageX exts p).content.toList = false
   ∧ containsSub "<code>".toList (processPageX exts p).content.toList = false)
  ∧ formattingQuality (processPageX exts p).content = 0
  ∧ (analyzeContentQuality [processPageX exts p]).averages.formatting_quality
      = 0 := by
  have hfree : tagFree (processPageX exts p).content.toList = true := by
    have hcontent : (processPageX exts p).content = cleanText (p.content.getD "") := by
      simp [processPageX, recoverD, h, processText, processTextM]
    rw [hcontent]
    exact tagFree_cleanText _
  have h1 := not_containsSub_of_tagFree _ ['h', '1'] hfree (by decide) (by decide)
  have h2 := not_containsSub_of_tagFree _ ['h', '2'] hfree (by decide) (by decide)
  have h3 := not_containsSub_of_tagFree _ ['p'] hfree (by decide) (by decide)
  have h4 := not_containsSub_of_tagFree _ ['t', 'a', 'b', 'l', 'e'] hfree
    (by decide) (by decide)
  have h5 := not_containsSub_of_tagFree _ ['c', 'o', 'd', 'e'] hfree
    (by decide) (by decide)
  have e1 : containsSub "<h1>".toList (processPageX exts p).content.toList = false := h1
  have e2 : containsSub "<h2>".toList (processPageX exts p).content.toList = false := h2
  have e3 : containsSub "<p>".toList (processPageX exts p).content.toList = false := h3
  have e4 : containsSub "<table>".toList (processPageX exts p).content.toList
      = false := h4
  have e5 : containsSub "<code>".toList (processPageX exts p).content.toList
      = false := h5
  have hfq : formattingQuality (processPageX exts p).content = 0 := by
    simp only [formattingQuality, e1, e2, e3, e4, e5]
    norm_num
  refine ⟨⟨e1, e2, e3, e4, e5⟩, hfq, ?_⟩
  have : (analyzeContentQuality [processPageX exts p]).averages.formatting_quality
      = meanQ [formattingQuality (processPageX exts p).content] := by
    simp [analyzeContentQuality, qualityMetrics]
  rw [this, hfq]
  simp [meanQ]

/-- Witness for C8 at the end-to-end scenario page with the real
extractors. -/
theorem claim_C8_witness :
    (realExtractors "t").text c2page = Except.ok (processText c2page)
  ∧ formattingQuality (processPageX (realExtractors "t") c2page).content = 0 :=
  ⟨rfl, (claim_C8 (realExtractors "t") c2page rfl).2.1⟩

/-! ### The regular-expression pass is the identity on match-free text -/

theorem tagSub_id_aux (l : List Char) :
    (mfRun .clean l = true → tagSubGo none l = l)
  ∧ ∀ buf, (∀ c ∈ buf, ¬ c = '>') →
      mfRun (.lt (!buf.isEmpty)) l = true →
      tagSubGo (some buf) l = '<' :: (buf.reverse ++ l) := by
  induction l with
  | nil =>
    refine ⟨fun _ => rfl, ?_⟩
    intro buf _ _
    simp [tagSubGo]
  | cons c rest ih =>
    refine ⟨?_, ?_⟩
    · intro h
      by_cases hc : c = '<'
      · subst hc
        simp only [tagSubGo, if_pos rfl]
        have hstep : mfStep .clean '<' = some (.lt false) := by simp [mfStep]
        have h2 : mfRun (.lt false) rest = true := by simpa [mfRun, hstep] using h
        have h3 := ih.2 [] (by simp) (by simpa using h2)
        simpa using h3
      · simp only [tagSubGo, if_neg hc]
        have hstep : mfStep .clean c = some .clean := by simp [mfStep, hc]
        have h2 : mfRun .clean rest = true := by simpa [mfRun, hstep] using h
        rw [ih.1 h2]
    · intro buf hbuf h
      by_cases hc : c = '>'
      · subst hc
        by_cases hb : buf.isEmpty = true
        · have hbe : buf = [] := by simpa [List.isEmpty_iff] using hb
          subst hbe
          simp only [tagSubGo, if_pos rfl, List.isEmpty_nil]
          have h2 : mfRun .clean rest = true := by simpa [mfRun, mfStep] using h
          rw [ih.1 h2]
          simp
        · exfalso
          have hm : (!buf.isEmpty) = true := by simp [Bool.not_eq_true'] at hb ⊢; exact hb
          rw [hm] at h
          simp [mfRun, mfStep] at h
      · simp only [tagSubGo, if_neg hc]
        have hbuf2 : ∀ x ∈ (c :: buf), ¬ x = '>' := by
          intro x hx
          rcases List.mem_cons.mp hx with h1 | h1
          · subst h1; exact hc
          · exact hbuf x h1
        have hstep : mfStep (.lt (!buf.isEmpty)) c = some (.lt true) := by
          simp [mfStep, hc]
        have h2 : mfRun (.lt true) rest = true := by simpa [mfRun, hstep] using h
        have h3 : mfRun (.lt (!(c :: buf).isEmpty)) rest = true := by simpa using h2
        rw [ih.2 (c :: buf) hbuf2 h3]
        simp

theorem tagSub_id (l : List Char) (h : tagFree l = true) : tagSub l = l :=
  (tagSub_id_aux l).1 h

/-! ### Collapsed text is canonical and collapsing is idempotent -/

theorem clps_canon (l : List Char) : ∀ t : Nat,
    canonB (if t = 0 then 0 else 1) (clpsGo t l) = true := by
  induction l with
  | nil =>
    intro t
    by_cases ht : t = 0 <;> simp [clpsGo, ht, canonB]
  | cons c rest ih =>
    intro t
    by_cases hws : isWsC c = true
    · simp only [clpsGo, if_pos hws]
      by_cases ht : t = 0
      · rw [if_pos ht, if_pos ht]
        have := ih 0
        simpa using this
      · rw [if_neg ht, if_neg ht]
        have := ih 2
        simpa using this
    · simp only [clpsGo, if_neg hws]
      have hcsp : ¬ c = ' ' := fun he => hws (by subst he; decide)
      by_cases ht : t = 2
      · rw [if_pos ht]
        rw [if_neg (show ¬ t = 0 by rw [ht]; decide)]
        show canonB 1 (' ' :: c :: clpsGo 1 rest) = true
        have := ih 1
        simp only [canonB] at this ⊢
        simp [hcsp, hws]
        simpa using ih 1
      · rw [if_neg ht]
        simp only [List.nil_append]
        have hgoal : canonB (if t = 0 then 0 else 1) (c :: clpsGo 1 rest)
            = canonB 1 (clpsGo 1 rest) := by
          simp [canonB, hcsp, hws]
        rw [hgoal]
        simpa using ih 1

theorem canon_fix (l : List Char) :
    (canonB 0 l = true → clpsGo 0 l = l)
  ∧ (canonB 1 l = true → clpsGo 1 l = l)
  ∧ (canonB 2 l = true → clpsGo 2 l = ' ' :: l) := by
  induction l with
  | nil =>
    refine ⟨fun _ => rfl, fun _ => rfl, fun h => ?_⟩
    simp [canonB] at h
  | cons c rest ih =>
    refine ⟨?_, ?_, ?_⟩
    · intro h
      by_cases hsp : c = ' '
      · subst hsp; simp [canonB] at h
      · by_cases hws : isWsC c = true
        · simp [canonB, hsp, hws] at h
        · have h1 : canonB 1 rest = true := by simpa [canonB, hsp, hws] using h
          simp only [clpsGo, if_neg hws]
          simp [ih.2.1 h1]
    · intro h
      by_cases hsp : c = ' '
      · subst hsp
        have h2 : canonB 2 rest = true := by simpa [canonB] using h
        have hws : isWsC ' ' = true := by decide
        simp only [clpsGo, if_pos hws]
        rw [if_neg (by decide : ¬ (1 : Nat) = 0)]
        exact ih.2.2 h2
      · by_cases hws : isWsC c = true
        · simp [canonB, hsp, hws] at h
        · have h1 : canonB 1 rest = true := by simpa [canonB, hsp, hws] using h
          simp only [clpsGo, if_neg hws]
          simp [ih.2.1 h1]
    · intro h
      by_cases hsp : c = ' '
      · subst hsp; simp [canonB] at h
      · by_cases hws : isWsC c = true
        · simp [canonB, hsp, hws] at h
        · have h1 : canonB 1 rest = true := by simpa [canonB, hsp, hws] using h
          simp only [clpsGo, if_neg hws]
          simp [ih.2.1 h1]

theorem canon_head (l : List Char) (h : canonB 0 l = true) :
    l.dropWhile isWsC = l := by
  cases l with
  | nil => rfl
  | cons c rest =>
    have hcw : isWsC c = false := by
      by_cases hsp : c = ' '
      · subst hsp; simp [canonB] at h
      · by_cases hws : isWsC c = true
        · simp [canonB, hsp, hws] at h
        · simpa using hws
    simp [List.dropWhile_cons, hcw]

theorem canon_last (l : List Char) : ∀ st : Nat, canonB st l = true →
    l = [] ∨ ∃ c, l.getLast? = some c ∧ isWsC c = false := by
  induction l with
  | nil => intro st _; exact Or.inl rfl
  | cons c rest ih =>
    intro st h
    cases rest with
    | nil =>
      refine Or.inr ⟨c, rfl, ?_⟩
      by_cases hsp : c = ' '
      · subst hsp
        by_cases h1 : st = 1
        · subst h1; simp [canonB] at h
        · simp [canonB, h1] at h
      · by_cases hws : isWsC c = true
        · simp [canonB, hsp, hws] at h
        · simpa using hws
    | cons d r2 =>
      have hnext : canonB 2 (d :: r2) = true ∨ canonB 1 (d :: r2) = true := by
        by_cases hsp : c = ' '
        · subst hsp
          by_cases h1 : st = 1
          · subst h1; exact Or.inl (by simpa [canonB] using h)
          · simp [canonB, h1] at h
        · by_cases hws : isWsC c = true
          · simp [canonB, hsp, hws] at h
          · exact Or.inr (by simpa [canonB, hsp, hws] using h)
      have hlast : (d :: r2) = [] ∨ ∃ x, (d :: r2).getLast? = some x ∧ isWsC x = false := by
        rcases hnext with h2 | h2
        · exact ih 2 h2
        · exact ih 1 h2
      rcases hlast with h2 | ⟨x, hx1, hx2⟩
      · exact absurd h2 (by simp)
      · refine Or.inr ⟨x, ?_, hx2⟩
        rw [List.getLast?_cons_cons]
        exact hx1

theorem canon_pstrip (l : List Char) (h : canonB 0 l = true) : pstrip l = l := by
  unfold pstrip
  rw [canon_head l h]
  rcases canon_last l 0 h with h1 | ⟨c, hc, hcw⟩
  · subst h1; rfl
  · have hrev : l.reverse.dropWhile isWsC = l.reverse := by
      cases hr : l.reverse with
      | nil => rfl
      | cons d r2 =>
        have hd : l.getLast? = some d := by
          rw [← List.head?_reverse, hr]; rfl
        rw [hd] at hc
        cases hc
        simp [List.dropWhile_cons, hcw]
    rw [hrev, List.reverse_reverse]

/-! ### The tokenizer on plain text -/

theorem tokenizeF_nil (n : Nat) : tokenizeF n [] = [] := by
  cases n <;> rfl

theorem scanGt_none (x : List Char) (h : ∀ c ∈ x, ¬ c = '>') : scanGt x = none := by
  unfold scanGt
  have hd : x.dropWhile (fun c => (c ≠ '>' : Bool)) = [] := by
    rw [List.dropWhile_eq_nil_iff]
    intro y hy
    simpa using h y hy
  rw [hd]

theorem noGt_subset (x y : List Char) (hsub : x ⊆ y)
    (h : ∀ c ∈ y, ¬ c = '>') : ∀ c ∈ x, ¬ c = '>' :=
  fun c hc => h c (hsub hc)

theorem tokenize_text (n : Nat) : ∀ l : List Char, l.length < n →
    (∀ c ∈ l, ¬ c = '&') → mfRun .clean l = true → l ≠ [] →
    tokenizeF n l = [Tok.chunk l] := by
  induction n with
  | zero => intro l h; exact absurd h (Nat.not_lt_zero _)
  | succ n ih =>
    intro l hlen hamp hrun hne
    cases l with
    | nil => exact absurd rfl hne
    | cons c rest =>
      have hlen2 : rest.length < n := by
        simp only [List.length_cons] at hlen; omega
      simp only [tokenizeF]
      have hc_amp : ¬ c = '&' := hamp c (by simp)
      rw [if_neg hc_amp]
      by_cases hlt : c = '<'
      · subst hlt
        rw [if_pos rfl]
        have hstep : mfStep .clean '<' = some (.lt false) := by simp [mfStep]
        have hrun2 : mfRun (.lt false) rest = true := by simpa [mfRun, hstep] using hrun
        split
        · rfl
        · rename_i c2 r2
          have hlen3 : (c2 :: r2).length < n := hlen2
          by_cases hgt2 : c2 = '>'
          · subst hgt2
            rw [if_neg (by decide : ¬ isAlphaC '>' = true)]
            rw [if_neg (by decide : ¬ ('>' : Char) = '/')]
            rw [if_neg (by decide : ¬ ('>' : Char) = '!')]
            have hrun3 : mfRun .clean ('>' :: r2) = true := by
              have h2 : mfRun .clean r2 = true := by
                simpa [mfRun, mfStep] using hrun2
              simpa [mfRun, mfStep] using h2
            rw [ih ('>' :: r2) hlen3 (fun x hx => hamp x (by simp [hx])) hrun3 (by simp)]
            rfl
          · have hstep2 : mfStep (.lt false) c2 = some (.lt true) := by
              simp [mfStep, hgt2]
            have hrun3 : mfRun (.lt true) r2 = true := by
              simpa [mfRun, hstep2] using hrun2
            have hnogt : ∀ x ∈ (c2 :: r2), ¬ x = '>' := by
              intro x hx
              rcases List.mem_cons.mp hx with h1 | h1
              · subst h1; exact hgt2
              · exact noGt_of_run_ltTrue r2 hrun3 x h1
            have hrunrest : mfRun .clean (c2 :: r2) = true :=
              mfRun_of_noGt _ _ hnogt
            have hfall :
                chunkCons ('<' :: (c2 :: r2).takeWhile (fun x => (x ≠ '<' : Bool)))
                    (tokenizeF n ((c2 :: r2).dropWhile (fun x => (x ≠ '<' : Bool))))
                  = [Tok.chunk ('<' :: c2 :: r2)] := by
              cases hrem : (c2 :: r2).dropWhile (fun x => (x ≠ '<' : Bool)) with
              | nil =>
                have hpre : (c2 :: r2).takeWhile (fun x => (x ≠ '<' : Bool)) = c2 :: r2 := by
                  have hsplit := @List.takeWhile_append_dropWhile Char
                    (fun x => (x ≠ '<' : Bool)) (c2 :: r2)
                  rw [hrem] at hsplit
                  simpa using hsplit
                rw [tokenizeF_nil, hpre]
                rfl
              | cons d r3 =>
                have hdsub : List.Sublist (d :: r3) (c2 :: r2) := by
                  rw [← hrem]
                  exact List.dropWhile_sublist _
                have hsub : (d :: r3).length < n :=
                  Nat.lt_of_le_of_lt hdsub.length_le hlen3
                have hdone := ih (d :: r3) hsub
                  (fun x hx => hamp x (by simp [hdsub.subset hx]))
                  (mfRun_of_noGt _ _ (noGt_subset _ _ hdsub.subset hnogt)) (by simp)
                rw [hdone]
                have hsplit := @List.takeWhile_append_dropWhile Char
                  (fun x => (x ≠ '<' : Bool)) (c2 :: r2)
                rw [hrem] at hsplit
                show Tok.chunk (('<' :: (c2 :: r2).takeWhile (fun x => (x ≠ '<' : Bool)))
                    ++ (d :: r3)) :: [] = [Tok.chunk ('<' :: c2 :: r2)]
                rw [List.cons_append, hsplit]
            by_cases halpha : isAlphaC c2 = true
            · rw [if_pos halpha]
              rw [scanGt_none _ (noGt_subset _ _ (List.dropWhile_subset _) hnogt)]
              exact hfall
            · rw [if_neg (by simpa using halpha)]
              by_cases hslash : c2 = '/'
              · rw [if_pos hslash]
                by_cases hname : (r2.takeWhile isTagNameC).isEmpty = true
                · rw [if_pos hname]
                  rw [ih (c2 :: r2) hlen3 (fun x hx => hamp x (by simp [hx]))
                    hrunrest (by simp)]
                  rfl
                · rw [if_neg hname]
                  have hr2gt : ∀ x ∈ r2, ¬ x = '>' :=
                    fun x hx => hnogt x (by simp [hx])
                  rw [scanGt_none _ (noGt_subset _ _ (List.dropWhile_subset _) hr2gt)]
                  exact hfall
              · rw [if_neg hslash]
                by_cases hbang : c2 = '!'
                · rw [if_pos hbang]
                  rw [scanGt_none _ hnogt]
                  exact hfall
                · rw [if_neg hbang]
                  rw [ih (c2 :: r2) hlen3 (fun x hx => hamp x (by simp [hx]))
                    hrunrest (by simp)]
                  rfl
      · rw [if_neg hlt]
        have hstep : mfStep .clean c = some .clean := by simp [mfStep, hlt]
        have hrun2 : mfRun .clean rest = true := by simpa [mfRun, hstep] using hrun
        cases rest with
        | nil => rw [tokenizeF_nil]; rfl
        | cons d r2 =>
          rw [ih (d :: r2) hlen2 (fun x hx => hamp x (by simp [hx])) hrun2 (by simp)]
          rfl

theorem buildF_nil (n : Nat) (stop : Option String) : buildF n [] stop = (.nil, []) := by
  cases n <;> rfl

theorem buildF_single_chunk (n : Nat) (s : List Char) (stop : Option String) :
    buildF (n + 1) [Tok.chunk s] stop = (.textF s .nil, []) := by
  simp [buildF, buildF_nil]

theorem toList_mk (l : List Char) : (String.mk l).toList = l := rfl

theorem parseHtml_text (l : List Char) (hne : l ≠ [])
    (hamp : ∀ c ∈ l, ¬ c = '&') (hfree : tagFree l = true) :
    parseHtml (String.mk l) = Forest.textF l Forest.nil := by
  have htoks : tokenize (String.mk l).toList = [Tok.chunk l] := by
    rw [toList_mk]
    unfold tokenize
    exact tokenize_text (l.length + 1) l (by omega) hamp hfree hne
  unfold parseHtml
  rw [htoks]
  simp [buildF_single_chunk]

theorem intercalate_one {α : Type} (sep : List α) (x : List α) :
    List.intercalate sep [x] = x := by
  simp [List.intercalate]

/-- The cleaner is the identity on non-empty canonical text without
character references and without a tag-pattern match. -/
theorem cleanText_text (l : List Char) (hne : l ≠ [])
    (hamp : ∀ c ∈ l, ¬ c = '&') (hfree : tagFree l = true)
    (hcanon : canonB 0 l = true) :
    cleanText (String.mk l) = String.mk l := by
  unfold cleanText
  rw [parseHtml_text l hne hamp hfree]
  have h2 : getTextS [' '] (stripSS (Forest.textF l Forest.nil)) = l := by
    show getTextS [' '] (Forest.textF l Forest.nil) = l
    unfold getTextS
    show List.intercalate [' ']
      (([l].map pstrip).filter (fun s => !s.isEmpty)) = l
    rw [List.map_singleton, canon_pstrip l hcanon]
    have hfil : [l].filter (fun s => !s.isEmpty) = [l] := by
      have hemp : l.isEmpty = false := by simpa [List.isEmpty_iff] using hne
      simp [List.filter, hemp]
    rw [hfil, intercalate_one]
  rw [h2, tagSub_id l hfree]
  show String.mk (clpsGo 0 l) = String.mk l
  rw [(canon_fix l).1 hcanon]

/-! ### C7: idempotence of the normalizer -/

theorem processText_shape (p : Page) :
    processText p
      = String.mk (collapseWs (tagSub (getTextS [' ']
          (stripSS (parseHtml (p.content.getD "")))))) := rfl

/-- C7 corrected: the normalizer is idempotent on every output that
contains no ampersand: normalizing such an already-normalized text
returns it unchanged.  (Outputs containing character-reference
sequences are decoded again on the second pass: see the
counterexample.) -/
theorem claim_C7 (p : Page)
    (hAmp : (processText p).toList.all (fun c => !(c = '&' : Bool)) = true) :
    processText (pageOfContent (processText p)) = processText p := by
  have hout := processText_shape p
  rw [hout] at hAmp ⊢
  rw [toList_mk] at hAmp
  have hamp : ∀ c ∈ (collapseWs (tagSub (getTextS [' ']
      (stripSS (parseHtml (p.content.getD "")))))), ¬ c = '&' := by
    intro c hc
    have := List.all_eq_true.mp hAmp c hc
    simpa using this
  have hfree : tagFree (collapseWs (tagSub (getTextS [' ']
      (stripSS (parseHtml (p.content.getD "")))))) = true :=
    tagFree_clps _ ((tagFree_tagSubGo _).1)
  have hcanon : canonB 0 (collapseWs (tagSub (getTextS [' ']
      (stripSS (parseHtml (p.content.getD "")))))) = true := by
    have := clps_canon (tagSub (getTextS [' ']
      (stripSS (parseHtml (p.content.getD ""))))) 0
    simpa using this
  by_cases hne : (collapseWs (tagSub (getTextS [' ']
      (stripSS (parseHtml (p.content.getD "")))))) = []
  · rw [hne]
    decide
  · show cleanText (String.mk _) = _
    rw [cleanText_text _ hne hamp hfree hcanon]

/-- Witness for C7: a plain paragraph page. -/
theorem claim_C7_witness :
    (processText c7wpage).toList.all (fun c => !(c = '&' : Bool)) = true
  ∧ processText (pageOfContent (processText c7wpage)) = processText c7wpage :=
  ⟨by decide, claim_C7 c7wpage (by decide)⟩

/-- C7 counterexample: the text ampersand-lt-semicolon is itself a
normalizer output (of the page whose markup spells it with an encoded
ampersand), and normalizing it again decodes the character reference,
returning the single character lt instead of the same text. -/
theorem claim_C7_cx :
    processText (pageOfContent "&amp;lt;") = "&lt;"
  ∧ processText (pageOfContent "&lt;") = "<"
  ∧ ¬ ("<" : String) = "&lt;" := by
  refine ⟨by decide, by decide, by decide⟩

end ARag
